import Mathlib

/-!
Verification development for the TCR-VAE core (`vampire/tcr_vae.py`).

The numerical code operates on batched float tensors.  We embed tensors as
(nested) lists of real numbers and float arithmetic as exact real arithmetic.
`np.log` is embedded into the extended reals `EReal` so that `log 0 = -inf`
(`⊥`), matching IEEE semantics that the importance-sampling code relies on.
Learned layers (Dense weights, embedding matrices) are embedded as explicit
weight data; random draws (`K.random_normal`, `stats.norm.rvs`,
`np.random.normal`) are passed in as explicit noise arguments, since the
shallow embedding treats the sampler's randomness as an oracle.
-/

noncomputable section

/-- Embedding of `np.log` on the nonnegative floats that appear in this
program: `np.log 0 = -inf`, and a positive argument gives the real log.
Values land in `EReal` so that `-inf` propagates through sums. -/
def nplog (x : ℝ) : EReal := if x = 0 then ⊥ else ((Real.log x : ℝ) : EReal)

/-- Row dot product, `np.sum(a * b)` for two equally-shaped vectors
(`np.zipWith`-style truncation models numpy's elementwise product of
equal-shape arrays). -/
def dotProd (a b : List ℝ) : ℝ := (List.zipWith (fun x y => x * y) a b).sum

/-- `scipy.stats.norm.logpdf(x, loc, scale)`:
`-((x-loc)/scale)^2/2 - log(scale) - log(sqrt(2*pi))`. -/
def normLogpdf (x loc scale : ℝ) : ℝ :=
  -(((x - loc) / scale) ^ 2) / 2 - Real.log scale - Real.log (Real.sqrt (2 * Real.pi))

/-- `logprob_of_obs_vect(probs, obs)` from `tcr_vae.py`:
`np.sum(np.log(np.sum(probs * obs, axis=1)))` — elementwise product of the two
matrices, summed across each row, logged, then summed. -/
def logprob_of_obs_vect (probs obs : List (List ℝ)) : EReal :=
  ((List.zipWith (fun prow orow => (List.zipWith (fun x y => x * y) prow orow).sum)
      probs obs).map nplog).sum

/-- Loop body of `log_p_of_x_importance_sample` for one input sequence `i`:
`out_ps[i] = log_p_x_given_z + (log_p_z - log_q_z_given_x)` where
`log_p_x_given_z = logprob_of_obs_vect(aa_probs[i], aa_obs[i])
 + np.log(np.sum(v_gene_probs[i] * v_gene_obs[i]))
 + np.log(np.sum(j_gene_probs[i] * j_gene_obs[i]))`,
`log_p_z = np.sum(stats.norm.logpdf(z_sample[i], 0, 1))` and
`log_q_z_given_x = np.sum(stats.norm.logpdf(z_sample[i], z_mean[i], z_sd[i]))`.
The importance weight is a finite float difference, added to the possibly
`-inf`-valued reconstruction log-probability. -/
def sample_estimate (aaProbs aaObs : List (List ℝ)) (vProbs vObs jProbs jObs : List ℝ)
    (zSample zMean zSd : List ℝ) : EReal :=
  logprob_of_obs_vect aaProbs aaObs
    + nplog ((List.zipWith (fun x y => x * y) vProbs vObs).sum)
    + nplog ((List.zipWith (fun x y => x * y) jProbs jObs).sum)
    + (((zSample.map (fun zd => normLogpdf zd 0 1)).sum
        - ((zSample.zip (zMean.zip zSd)).map (fun p => normLogpdf p.1 p.2.1 p.2.2)).sum : ℝ) : EReal)

/-- `log_p_of_x_importance_sample` from `tcr_vae.py`.  The encoder outputs
(`z_mean`, `z_sd`), the per-sequence posterior draw `z_sample`
(`stats.norm.rvs(z_mean, z_sd)`) and the decoded probability arrays
(`aa_probs, v_gene_probs, j_gene_probs = self.decode(z_sample)`) are passed in
explicitly; the function then fills `out_ps` by the loop
`for i in range(len(x_df))`. -/
def log_p_of_x_importance_sample (zMean zSd zSample : List (List ℝ))
    (aaProbs : List (List (List ℝ))) (vProbs jProbs : List (List ℝ))
    (aaObs : List (List (List ℝ))) (vObs jObs : List (List ℝ)) : List EReal :=
  (List.range aaObs.length).map (fun i =>
    sample_estimate (aaProbs.getD i []) (aaObs.getD i [])
      (vProbs.getD i []) (vObs.getD i []) (jProbs.getD i []) (jObs.getD i [])
      (zSample.getD i []) (zMean.getD i []) (zSd.getD i []))

/-- `scipy.special.logsumexp` on a vector. -/
def logsumexp (xs : List ℝ) : ℝ := Real.log ((xs.map Real.exp).sum)

/-- Aggregation in the `importance` CLI command, for one sequence: the column
of `N` per-sample log-estimates is reduced by
`special.logsumexp(log_p_x, axis=0) - np.log(nsamples)`. -/
def importance_avg (sample_estimates : List ℝ) : ℝ :=
  logsumexp sample_estimates - Real.log sample_estimates.length

/-- Spec-side formula for `log p(x|z)` ("sum over CDR3 positions of the log of
the per-position dot product of probability row and one-hot row, plus the log
of the selected V-gene probability plus the log of the selected J-gene
probability"). -/
def spec_log_p_x_given_z (aaProbs aaObs : List (List ℝ)) (vProbs vObs jProbs jObs : List ℝ) :
    EReal :=
  (List.zipWith (fun prow orow => nplog (dotProd prow orow)) aaProbs aaObs).sum
    + nplog (dotProd vProbs vObs) + nplog (dotProd jProbs jObs)

/-! ## The composite loss (`vae_loss` inside `encoder_decoder_vae`) -/

/-- `keras.objectives.categorical_crossentropy(target, output)` along the last
axis: for each row (the vocabulary axis) it returns `-sum(target * log(output))`.
Applied to a `(positions, vocab)` CDR3 matrix it yields one value per position;
applied to a `(batch, vocab)` gene tensor it yields one value per sequence.
Keras's re-normalisation and epsilon-clipping of `output` are the identity on
the softmax-produced probability vectors this model feeds in and are omitted. -/
def categorical_crossentropy (target output : List (List ℝ)) : List ℝ :=
  List.zipWith (fun trow prow => -(List.zipWith (fun t p => t * Real.log p) trow prow).sum)
    target output

/-- `K.mean` over all entries of a (flattened) tensor. -/
def kmean (xs : List ℝ) : ℝ := xs.sum / xs.length

/-- `io_decoder.shape.num_elements()` for a rank-3 tensor: the total number of
scalar entries, batch dimension included (the static shape of the decoder
output carries the concrete batch size baked in by the sampling layer's
fixed-shape noise tensor). -/
def num_elements3 (t : List (List (List ℝ))) : ℕ :=
  (t.map (fun m => (m.map List.length).sum)).sum

/-- `xent_loss` of `vae_loss` for the CDR3 output:
`io_decoder.shape.num_elements() * K.mean(objectives.categorical_crossentropy(io_encoder, io_decoder))`.
The cross-entropy of the rank-3 tensors is the `(batch, positions)` matrix of
per-position values, and `K.mean` averages over all of its entries. -/
def xent_loss_CDR3 (target output : List (List (List ℝ))) : ℝ :=
  (num_elements3 output : ℝ) * kmean (List.zipWith categorical_crossentropy target output).flatten

/-- Spec-side reconstruction term as the claim words it:
`(max_cdr3_len * n_aas) * mean_over_batch(categorical_cross_entropy(CDR3_target, CDR3_output))`,
the cross-entropy computed per sequence (summed over its positions) and then
averaged over the batch. -/
def xent_loss_CDR3_spec (target output : List (List (List ℝ))) (maxCdr3Len nAas : ℕ) : ℝ :=
  ((maxCdr3Len * nAas : ℕ) : ℝ) *
    kmean ((List.zipWith categorical_crossentropy target output).map List.sum)

/-- `vae_loss(io_encoder, io_decoder)` for the CDR3 channel, as a per-sample
vector over the batch: the scalar `xent_loss` plus the per-sample
`kl_loss = -0.5 * K.sum(1 + z_log_var - K.square(z_mean) - K.exp(z_log_var), axis=-1)`
rescaled in place by `kl_loss *= 1 / 3 * params['batch_size']`. -/
def vae_loss_CDR3 (target output : List (List (List ℝ))) (zMean zLogVar : List (List ℝ))
    (batchSize : ℕ) : List ℝ :=
  (zMean.zip zLogVar).map (fun p =>
    xent_loss_CDR3 target output
      + (-(1 / 2) * ((p.1.zip p.2).map
          (fun q => 1 + q.2 - q.1 ^ 2 - Real.exp q.2)).sum) * (1 / 3 * (batchSize : ℝ)))

/-! ## The decoder network and the training graph -/

/-- `keras.layers.Dense` with explicit weights: row `j` of `W` holds the
kernel column producing output unit `j`, so `(dense W b x)[j] = x ⬝ W[j] + b[j]`
(linear activation). -/
def dense (W : List (List ℝ)) (b : List ℝ) (x : List ℝ) : List ℝ :=
  List.zipWith (fun wrow bj => dotProd x wrow + bj) W b

/-- The `elu` activation: `x` for `x > 0`, else `exp x - 1`. -/
def elu (x : ℝ) : ℝ := if 0 < x then x else Real.exp x - 1

/-- A Dense layer with `activation='elu'`. -/
def denseElu (W : List (List ℝ)) (b : List ℝ) (x : List ℝ) : List ℝ :=
  (dense W b x).map elu

/-- `Activation('softmax')` along a vocabulary axis. -/
def softmax (xs : List ℝ) : List ℝ :=
  xs.map (fun x => Real.exp x / (xs.map Real.exp).sum)

/-- `Reshape(cdr3_input_shape)`: cut a flat vector of `L*A` values into `L`
rows of `A` entries (row-major). -/
def reshapeRows (L A : ℕ) (xs : List ℝ) : List (List ℝ) :=
  (List.range L).map (fun i => (xs.drop (i * A)).take A)

/-- The learned weights of the decoding layers `dense_decoder1`,
`dense_decoder2`, `flat_CDR_out`, `Vgene_prob_out` and `Jgene_prob_out`.
Both the training graph and the standalone decoder apply these same layer
objects, so both are parameterised by one value of this structure. -/
structure DecoderWeights where
  W1 : List (List ℝ)
  b1 : List ℝ
  W2 : List (List ℝ)
  b2 : List ℝ
  W3 : List (List ℝ)
  b3 : List ℝ
  Wv : List (List ℝ)
  bv : List ℝ
  Wj : List (List ℝ)
  bj : List ℝ

/-- The `sampling` closure (the `reparameterization_trick` Lambda layer):
`z_mean + K.exp(z_log_var / 2) * epsilon`, with `epsilon` the standard-normal
noise tensor drawn by `K.random_normal` — passed in explicitly here.  Each
invocation of the Lambda layer in the graph executes this with its own fresh
`epsilon`. -/
def sampling (zMean zLogVar eps : List ℝ) : List ℝ :=
  List.zipWith (fun p e => p.1 + Real.exp (p.2 / 2) * e) (zMean.zip zLogVar) eps

/-- The standalone decoder (`decoder_generator_*` layers fed by
`z_mean_generator`, wrapped by `TCRVAE.decode`), per latent row:
two elu Dense layers, then the three output heads (flat CDR3 Dense + Reshape +
position-wise softmax; V-gene Dense + softmax; J-gene Dense + softmax). -/
def decode (w : DecoderWeights) (L A : ℕ) (z : List ℝ) :
    List (List ℝ) × List ℝ × List ℝ :=
  let h := denseElu w.W2 w.b2 (denseElu w.W1 w.b1 z)
  ((reshapeRows L A (dense w.W3 w.b3 h)).map softmax,
   softmax (dense w.Wv w.bv h),
   softmax (dense w.Wj w.bj h))

/-- `decoder_output_CDR3` of the training graph (line
`position_wise_softmax_CDR3(reshape_CDR3(decoder_out_CDR3(dense_decoder2(dense_decoder1(z([z_mean, z_log_var]))))))`):
its `z(...)` call draws its own noise `eps1`. -/
def decoder_output_CDR3 (w : DecoderWeights) (L A : ℕ) (zMean zLogVar eps1 : List ℝ) :
    List (List ℝ) :=
  (reshapeRows L A
      (dense w.W3 w.b3
        (denseElu w.W2 w.b2 (denseElu w.W1 w.b1 (sampling zMean zLogVar eps1))))).map softmax

/-- `decoder_output_Vgene` of the training graph: a second, independent
invocation of the sampling Lambda, with its own noise `eps2`. -/
def decoder_output_Vgene (w : DecoderWeights) (zMean zLogVar eps2 : List ℝ) : List ℝ :=
  softmax (dense w.Wv w.bv
    (denseElu w.W2 w.b2 (denseElu w.W1 w.b1 (sampling zMean zLogVar eps2))))

/-- `decoder_output_Jgene` of the training graph: a third invocation of the
sampling Lambda, with its own noise `eps3`. -/
def decoder_output_Jgene (w : DecoderWeights) (zMean zLogVar eps3 : List ℝ) : List ℝ :=
  softmax (dense w.Wj w.bj
    (denseElu w.W2 w.b2 (denseElu w.W1 w.b1 (sampling zMean zLogVar eps3))))

/-! ## `generate` and `get_data` -/

/-- `n_actual = batch_size * math.ceil(n_seqs / batch_size)` from `generate`. -/
def n_actual (batchSize nSeqs : ℕ) : ℕ :=
  batchSize * ((nSeqs + batchSize - 1) / batchSize)

/-- `TCRVAE.generate(n_seqs)`: sample `n_actual` latent rows from the prior
(`np.random.normal(0, 1, size=(n_actual, latent_dim))`, modelled by the
explicit noise oracle `drawRow`), decode them row-wise, and keep the first
`n_seqs` rows of each of the three decoded arrays (the external conversion
collaborator `onehot_to_tcrbs` then turns those rows into records 1:1). -/
def generate (batchSize : ℕ) (drawRow : ℕ → List ℝ) (w : DecoderWeights) (L A : ℕ)
    (nSeqs : ℕ) : List (List (List ℝ)) × List (List ℝ) × List (List ℝ) :=
  let zSample := (List.range (n_actual batchSize nSeqs)).map drawRow
  ((zSample.map (fun z => (decode w L A z).1)).take nSeqs,
   (zSample.map (fun z => (decode w L A z).2.1)).take nSeqs,
   (zSample.map (fun z => (decode w L A z).2.2)).take nSeqs)

/-- `TCRVAE.get_data(fname, data_chunk_size)`: with `data_chunk_size == 0` the
rows pass through untrimmed; otherwise `assert len(df) >= data_chunk_size`
(modelled as an `Except.error`) and then `sub_df = df[:n_to_take]` with
`n_to_take = len(df) - len(df) % data_chunk_size`.  The external conversion
collaborator `unpadded_tcrbs_to_onehot` is the abstract row-wise `conv`. -/
def get_data {α β : Type} (conv : List α → β) (df : List α) (dataChunkSize : ℕ) :
    Except String β :=
  if dataChunkSize = 0 then .ok (conv df)
  else if df.length < dataChunkSize then .error "assert len(df) >= data_chunk_size"
  else .ok (conv (df.take (df.length - df.length % dataChunkSize)))

/-! ## The matmul-diagonal formulation replaced by `logprob_of_obs_vect` -/

/-- `numpy` transpose of a rectangular matrix (`obs.T`). -/
def transposeMat (M : List (List ℝ)) : List (List ℝ) :=
  (List.range (M.headD []).length).map (fun j => M.map (fun r => r.getD j 0))

/-- `np.matmul` of two rectangular matrices: entry `(i, j)` is the dot product
of row `i` of `X` with column `j` of `Y`. -/
def matmul (X Y : List (List ℝ)) : List (List ℝ) :=
  X.map (fun ra => (transposeMat Y).map (fun cb => dotProd ra cb))

/-- `.diagonal()` of a square matrix. -/
def diagonal (M : List (List ℝ)) : List ℝ :=
  M.enum.map (fun p => p.2.getD p.1 0)

/-- The original formulation `np.sum(np.log(np.matmul(probs, obs.T).diagonal()))`
that `logprob_of_obs_vect`'s docstring says it replaced. -/
def logprob_of_obs_vect_matmul (probs obs : List (List ℝ)) : EReal :=
  ((diagonal (matmul probs (transposeMat obs))).map nplog).sum

/-! ## Concrete data used by witnesses and counterexamples -/

/-- A 1-unit decoder weight assignment (identity-like) used for witnesses. -/
def wit_weights : DecoderWeights :=
  ⟨[[1]], [0], [[1]], [0], [[1]], [0], [[1]], [0], [[1]], [0]⟩

/-- Decoder weights with a 2-unit V-gene head that distinguishes latent inputs
`[0]` and `[1]`; used to exhibit the three heads' distinct latent samples. -/
def cex_weights : DecoderWeights :=
  ⟨[[1]], [0], [[1]], [0], [[1]], [0], [[1], [0]], [0, 0], [[1]], [0]⟩

/-- A one-sequence batch: a CDR3 target of 2 positions over a 2-letter
vocabulary. -/
def cex_target : List (List (List ℝ)) := [[[1, 0], [0, 1]]]

/-- The matching decoded CDR3 output: uniform distributions per position. -/
def cex_output : List (List (List ℝ)) := [[[1 / 2, 1 / 2], [1 / 2, 1 / 2]]]

/-! ## Helper lemmas -/

lemma ereal_add_coe_sub (x : EReal) (a b : ℝ) :
    x + ((a - b : ℝ) : EReal) = x + (a : EReal) - (b : EReal) := by
  induction x using EReal.rec with
  | h_bot => simp [EReal.bot_add, EReal.bot_sub]
  | h_real y => norm_cast; ring
  | h_top => simp [← EReal.coe_sub, EReal.top_add_coe]

lemma getD_map_range {α : Type} (n : ℕ) (f : ℕ → α) (i : ℕ) (d : α) (h : i < n) :
    ((List.range n).map f).getD i d = f i := by
  simp [List.getD_eq_getElem?_getD, List.getElem?_map, List.getElem?_range h]

lemma sum_eq_bot_of_bot_mem (l : List EReal) (h : ⊥ ∈ l) : l.sum = ⊥ := by
  induction l with
  | nil => simp at h
  | cons a t ih =>
      rcases List.mem_cons.mp h with h1 | h2
      · simp [← h1, List.sum_cons, EReal.bot_add]
      · simp [List.sum_cons, ih h2, EReal.add_bot]

lemma zip_mul_sum_zero (p o : List ℝ) (h : ∀ x ∈ o, x = 0) :
    (List.zipWith (fun x y => x * y) p o).sum = 0 := by
  induction p generalizing o with
  | nil => simp
  | cons a t ih =>
      cases o with
      | nil => simp
      | cons b s =>
          have hb : b = 0 := h b (by simp)
          have hs : ∀ x ∈ s, x = 0 := fun x hx => h x (List.mem_cons_of_mem _ hx)
          simp [List.zipWith, hb, ih s hs]

lemma nplog_zero : nplog 0 = ⊥ := by simp [nplog]

/-! ## Claims C1, C2, C3, C8 -/

/-- C1: for each sequence `i` of the batch, `log_p_of_x_importance_sample`
writes the per-sample estimate `log p(x|z) + log p(z) - log q(z|x)`, with
`log p(x|z)` the sum over CDR3 positions of the log of the per-position
probability/one-hot dot product plus the logs of the selected V- and J-gene
probabilities, `log p(z)` the sum of standard-normal log-densities of the
latent draw, and `log q(z|x)` the sum of `Normal(z_mean_i, z_sd_i)`
log-densities at the draw. -/
theorem importance_sample_writes_spec_estimate
    (zMean zSd zSample : List (List ℝ)) (aaProbs : List (List (List ℝ)))
    (vProbs jProbs : List (List ℝ)) (aaObs : List (List (List ℝ)))
    (vObs jObs : List (List ℝ)) (i : ℕ) (h : i < aaObs.length) :
    (log_p_of_x_importance_sample zMean zSd zSample aaProbs vProbs jProbs
        aaObs vObs jObs).getD i ⊥ =
      spec_log_p_x_given_z (aaProbs.getD i []) (aaObs.getD i []) (vProbs.getD i [])
          (vObs.getD i []) (jProbs.getD i []) (jObs.getD i [])
        + ((((zSample.getD i []).map (fun zd => normLogpdf zd 0 1)).sum : ℝ) : EReal)
        - (((((zSample.getD i []).zip ((zMean.getD i []).zip (zSd.getD i []))).map
            (fun p => normLogpdf p.1 p.2.1 p.2.2)).sum : ℝ) : EReal) := by
  rw [log_p_of_x_importance_sample, getD_map_range _ _ _ _ h, sample_estimate,
    ereal_add_coe_sub]
  congr 2
  rw [spec_log_p_x_given_z, logprob_of_obs_vect, List.map_zipWith]
  rfl

/-- Witness for C1 at a concrete singleton batch. -/
theorem importance_sample_writes_spec_estimate_witness :
    0 < ([[[(1 : ℝ)]]] : List (List (List ℝ))).length ∧
      (log_p_of_x_importance_sample [[0]] [[1]] [[0]] [[[1]]] [[1]] [[1]]
          [[[(1 : ℝ)]]] [[1]] [[1]]).getD 0 ⊥ =
        spec_log_p_x_given_z ([[[(1 : ℝ)]]].getD 0 []) (([[[(1 : ℝ)]]] :
            List (List (List ℝ))).getD 0 []) ([[(1 : ℝ)]].getD 0 [])
            ([[(1 : ℝ)]].getD 0 []) ([[(1 : ℝ)]].getD 0 []) ([[(1 : ℝ)]].getD 0 [])
          + (((([[(0 : ℝ)]].getD 0 []).map (fun zd => normLogpdf zd 0 1)).sum : ℝ) : EReal)
          - ((((([[(0 : ℝ)]].getD 0 []).zip (([[(0 : ℝ)]].getD 0 []).zip
              ([[(1 : ℝ)]].getD 0 []))).map
              (fun p => normLogpdf p.1 p.2.1 p.2.2)).sum : ℝ) : EReal) :=
  ⟨by simp, importance_sample_writes_spec_estimate [[0]] [[1]] [[0]] [[[1]]] [[1]] [[1]]
    [[[(1 : ℝ)]]] [[1]] [[1]] 0 (by simp)⟩

/-- C2: the `importance` command aggregates the `N` per-sample log-estimates
of a sequence as `logsumexp(sample_estimates) - log(N)`; when all `N`
estimates equal `L` the aggregate equals `L` exactly. -/
theorem importance_aggregate_of_identical (N : ℕ) (L : ℝ) (h : 1 ≤ N) :
    importance_avg (List.replicate N L) = L := by
  unfold importance_avg logsumexp
  rw [List.map_replicate, List.sum_replicate, List.length_replicate, nsmul_eq_mul,
    Real.log_mul (Nat.cast_ne_zero.mpr (by omega)) (Real.exp_ne_zero L), Real.log_exp]
  ring

/-- Witness for C2 with two identical estimates. -/
theorem importance_aggregate_of_identical_witness :
    1 ≤ 2 ∧ importance_avg (List.replicate 2 (0 : ℝ)) = 0 :=
  ⟨by decide, importance_aggregate_of_identical 2 0 (by decide)⟩

/-- C3: each per-sample entry of the composite loss is the reconstruction term
plus the KL term `(1/3 * batch_size) * (-0.5 * sum over latent dimensions of
(1 + z_log_var - z_mean^2 - exp(z_log_var)))`. -/
theorem composite_loss_kl_term (target output : List (List (List ℝ)))
    (zMean zLogVar : List (List ℝ)) (batchSize : ℕ) :
    vae_loss_CDR3 target output zMean zLogVar batchSize =
      (zMean.zip zLogVar).map (fun p =>
        xent_loss_CDR3 target output
          + (1 / 3 * (batchSize : ℝ)) *
            (-(1 / 2) * ((p.1.zip p.2).map
              (fun q => 1 + q.2 - q.1 ^ 2 - Real.exp q.2)).sum)) := by
  unfold vae_loss_CDR3
  congr 1
  funext p
  ring

/-- C8: if any observed one-hot vector of a sequence is all zeros (a CDR3 row,
the V-gene vector, or the J-gene vector), the per-sequence importance-sample
estimate evaluates to `-inf` (`⊥`); the computation is total, so no exception
is raised. -/
theorem malformed_onehot_gives_bot (aaProbs aaObs : List (List ℝ))
    (vProbs vObs jProbs jObs zSample zMean zSd : List ℝ)
    (hlen : aaProbs.length = aaObs.length)
    (h : (∃ row ∈ aaObs, ∀ x ∈ row, x = 0) ∨ (∀ x ∈ vObs, x = 0) ∨ (∀ x ∈ jObs, x = 0)) :
    sample_estimate aaProbs aaObs vProbs vObs jProbs jObs zSample zMean zSd = ⊥ := by
  unfold sample_estimate
  rcases h with ⟨row, hrow, hz⟩ | hv | hj
  · have hb : logprob_of_obs_vect aaProbs aaObs = ⊥ := by
      unfold logprob_of_obs_vect
      apply sum_eq_bot_of_bot_mem
      obtain ⟨k, hk, hkeq⟩ := List.getElem_of_mem hrow
      have hkz : k < (List.zipWith
          (fun prow orow => (List.zipWith (fun x y => x * y) prow orow).sum)
          aaProbs aaObs).length := by
        rw [List.length_zipWith]
        omega
      have hv0 : (List.zipWith
          (fun prow orow => (List.zipWith (fun x y => x * y) prow orow).sum)
          aaProbs aaObs)[k] = 0 := by
        rw [List.getElem_zipWith]
        exact zip_mul_sum_zero _ _ (by rw [hkeq]; exact hz)
      refine List.mem_map.mpr ⟨0, ?_, nplog_zero⟩
      rw [← hv0]
      exact List.getElem_mem hkz
    rw [hb]
    simp [EReal.bot_add]
  · rw [zip_mul_sum_zero _ _ hv, nplog_zero]
    simp [EReal.add_bot, EReal.bot_add]
  · rw [zip_mul_sum_zero _ _ hj, nplog_zero]
    simp [EReal.add_bot, EReal.bot_add]

/-- Witness for C8: an all-zero V-gene observation vector. -/
theorem malformed_onehot_gives_bot_witness :
    ([[(1 : ℝ)]] : List (List ℝ)).length = ([[(1 : ℝ)]] : List (List ℝ)).length ∧
      sample_estimate [[1]] [[1]] [1, 1] [0, 0] [1] [1] [0] [0] [1] = ⊥ :=
  ⟨rfl, malformed_onehot_gives_bot [[1]] [[1]] [1, 1] [0, 0] [1] [1] [0] [0] [1]
    rfl (Or.inr (Or.inl (by simp)))⟩

/-! ## Softmax facts, C9, C5, C7 -/

lemma softmax_length (xs : List ℝ) : (softmax xs).length = xs.length := by
  simp [softmax]

lemma softmax_sum_one (xs : List ℝ) (h : xs ≠ []) : (softmax xs).sum = 1 := by
  unfold softmax
  have hpos : 0 < (xs.map Real.exp).sum := by
    apply List.sum_pos
    · intro a ha
      obtain ⟨x, _, rfl⟩ := List.mem_map.mp ha
      exact Real.exp_pos x
    · simpa using h
  simp only [div_eq_mul_inv]
  rw [List.sum_map_mul_right]
  exact mul_inv_cancel₀ hpos.ne'

lemma reshape_row_length (L A i : ℕ) (xs : List ℝ) (hi : i < L) (hxs : xs.length = L * A) :
    ((xs.drop (i * A)).take A).length = A := by
  have hmul : i * A + A ≤ L * A := by
    have := Nat.mul_le_mul_right A (show i + 1 ≤ L by omega)
    rw [add_mul, one_mul] at this
    exact this
  rw [List.length_take, List.length_drop, hxs]
  omega

/-- C9: for every latent input `z` and layer weights of the declared
dimensions, `decode z` returns a CDR3 tensor of shape
`(max_cdr3_len, n_aas)`, a V-gene vector of length `n_v_genes` and a J-gene
vector of length `n_j_genes`, each of whose vocabulary-axis slices sums to 1
(valid probability distributions produced by the softmax heads). -/
theorem decode_outputs_are_distributions (w : DecoderWeights) (L A nv nj : ℕ) (z : List ℝ)
    (hW3 : w.W3.length = L * A) (hb3 : w.b3.length = L * A) (hA : 1 ≤ A)
    (hWv : w.Wv.length = nv) (hbv : w.bv.length = nv) (hnv : 1 ≤ nv)
    (hWj : w.Wj.length = nj) (hbj : w.bj.length = nj) (hnj : 1 ≤ nj) :
    (decode w L A z).1.length = L ∧
    (∀ row ∈ (decode w L A z).1, row.length = A ∧ row.sum = 1) ∧
    (decode w L A z).2.1.length = nv ∧ (decode w L A z).2.1.sum = 1 ∧
    (decode w L A z).2.2.length = nj ∧ (decode w L A z).2.2.sum = 1 := by
  have hd3 : (dense w.W3 w.b3 (denseElu w.W2 w.b2 (denseElu w.W1 w.b1 z))).length = L * A := by
    simp [dense, List.length_zipWith, hW3, hb3]
  have hdv : (dense w.Wv w.bv (denseElu w.W2 w.b2 (denseElu w.W1 w.b1 z))).length = nv := by
    simp [dense, List.length_zipWith, hWv, hbv]
  have hdj : (dense w.Wj w.bj (denseElu w.W2 w.b2 (denseElu w.W1 w.b1 z))).length = nj := by
    simp [dense, List.length_zipWith, hWj, hbj]
  refine ⟨by simp [decode, reshapeRows], ?_, ?_, ?_, ?_, ?_⟩
  · intro row hrow
    simp only [decode] at hrow
    obtain ⟨r, hr, rfl⟩ := List.mem_map.mp hrow
    simp only [reshapeRows, List.mem_map, List.mem_range] at hr
    obtain ⟨i, hi, rfl⟩ := hr
    have hlen : (((dense w.W3 w.b3
        (denseElu w.W2 w.b2 (denseElu w.W1 w.b1 z))).drop (i * A)).take A).length = A :=
      reshape_row_length L A i _ hi hd3
    refine ⟨by rw [softmax_length, hlen], ?_⟩
    exact softmax_sum_one _ (List.length_pos.mp (by rw [hlen]; omega))
  · rw [show (decode w L A z).2.1 = softmax (dense w.Wv w.bv
      (denseElu w.W2 w.b2 (denseElu w.W1 w.b1 z))) from rfl, softmax_length, hdv]
  · exact softmax_sum_one _ (List.length_pos.mp (by rw [hdv]; omega))
  · rw [show (decode w L A z).2.2 = softmax (dense w.Wj w.bj
      (denseElu w.W2 w.b2 (denseElu w.W1 w.b1 z))) from rfl, softmax_length, hdj]
  · exact softmax_sum_one _ (List.length_pos.mp (by rw [hdj]; omega))

/-- Witness for C9 with 1-dimensional heads. -/
theorem decode_outputs_are_distributions_witness :
    wit_weights.W3.length = 1 * 1 ∧ 1 ≤ 1 ∧
      ((decode wit_weights 1 1 [0]).1.length = 1 ∧
      (∀ row ∈ (decode wit_weights 1 1 [0]).1, row.length = 1 ∧ row.sum = 1) ∧
      (decode wit_weights 1 1 [0]).2.1.length = 1 ∧ (decode wit_weights 1 1 [0]).2.1.sum = 1 ∧
      (decode wit_weights 1 1 [0]).2.2.length = 1 ∧ (decode wit_weights 1 1 [0]).2.2.sum = 1) :=
  ⟨by simp [wit_weights], by decide,
    decode_outputs_are_distributions wit_weights 1 1 1 1 [0]
      (by simp [wit_weights]) (by simp [wit_weights]) (by decide)
      (by simp [wit_weights]) (by simp [wit_weights]) (by decide)
      (by simp [wit_weights]) (by simp [wit_weights]) (by decide)⟩

/-- C5: `generate(n)` draws `n_actual` latent samples — `n` rounded up to the
nearest batch-size multiple — decodes them, and returns exactly `n` records
(the first `n` rows of each decoded array), for every `n >= 1`, including `n`
not a multiple of the batch size. -/
theorem generate_returns_exactly_n (batchSize : ℕ) (drawRow : ℕ → List ℝ)
    (w : DecoderWeights) (L A nSeqs : ℕ) (hB : 1 ≤ batchSize) (hn : 1 ≤ nSeqs) :
    (generate batchSize drawRow w L A nSeqs).1.length = nSeqs ∧
    (generate batchSize drawRow w L A nSeqs).2.1.length = nSeqs ∧
    (generate batchSize drawRow w L A nSeqs).2.2.length = nSeqs ∧
    batchSize ∣ n_actual batchSize nSeqs ∧
    nSeqs ≤ n_actual batchSize nSeqs ∧
    n_actual batchSize nSeqs < nSeqs + batchSize := by
  have hdm := Nat.div_add_mod (nSeqs + batchSize - 1) batchSize
  have hr : (nSeqs + batchSize - 1) % batchSize < batchSize := Nat.mod_lt _ (by omega)
  have hle : nSeqs ≤ n_actual batchSize nSeqs := by unfold n_actual; omega
  have hlt : n_actual batchSize nSeqs < nSeqs + batchSize := by unfold n_actual; omega
  refine ⟨?_, ?_, ?_, dvd_mul_right _ _, hle, hlt⟩ <;>
    simp [generate, List.length_take, Nat.min_eq_left hle]

/-- Witness for C5: batch size 2, three requested sequences. -/
theorem generate_returns_exactly_n_witness :
    1 ≤ 2 ∧ 1 ≤ 3 ∧
      ((generate 2 (fun _ => []) wit_weights 0 0 3).1.length = 3 ∧
      (generate 2 (fun _ => []) wit_weights 0 0 3).2.1.length = 3 ∧
      (generate 2 (fun _ => []) wit_weights 0 0 3).2.2.length = 3 ∧
      2 ∣ n_actual 2 3 ∧ 3 ≤ n_actual 2 3 ∧ n_actual 2 3 < 3 + 2) :=
  ⟨by decide, by decide,
    generate_returns_exactly_n 2 (fun _ => []) wit_weights 0 0 3 (by decide) (by decide)⟩

/-- Counterexample to C7: a 3-row dataset with chunk size 2 is silently
truncated to its first 2 rows by `get_data` — no assertion failure is
signalled even though 3 is not a multiple of 2. -/
theorem get_data_truncates_cex :
    ¬ (2 ∣ ([0, 1, 2] : List ℕ).length) ∧
      get_data (fun l => l) ([0, 1, 2] : List ℕ) 2 = Except.ok [0, 1] := by
  constructor
  · decide
  · rfl

/-- C7 amended: with a nonzero chunk size, `get_data` asserts only
`len(df) >= data_chunk_size` and then silently trims the data to the largest
multiple of the chunk size (truncation happens inside `get_data`, guarded by
the length assertion, not signalled as a batch-multiple assertion failure). -/
theorem get_data_trims_amended {α β : Type} (conv : List α → β) (df : List α) (chunk : ℕ)
    (h0 : chunk ≠ 0) (hle : chunk ≤ df.length) :
    get_data conv df chunk = .ok (conv (df.take (df.length - df.length % chunk))) ∧
      chunk ∣ df.length - df.length % chunk ∧
      df.length - df.length % chunk ≤ df.length ∧
      df.length < (df.length - df.length % chunk) + chunk := by
  have hdm := Nat.div_add_mod df.length chunk
  have hr : df.length % chunk < chunk := Nat.mod_lt _ (by omega)
  refine ⟨?_, ?_, by omega, by omega⟩
  · unfold get_data
    rw [if_neg h0, if_neg (by omega)]
  · have heq : df.length - df.length % chunk = chunk * (df.length / chunk) := by omega
    rw [heq]
    exact Dvd.intro _ rfl

/-- Witness for the amended C7 on a 5-row dataset with chunk size 2. -/
theorem get_data_trims_amended_witness :
    (2 : ℕ) ≠ 0 ∧ 2 ≤ ([0, 1, 2, 3, 4] : List ℕ).length ∧
      (get_data (fun l => l) ([0, 1, 2, 3, 4] : List ℕ) 2 =
          .ok (([0, 1, 2, 3, 4] : List ℕ).take (5 - 5 % 2)) ∧
        2 ∣ 5 - 5 % 2 ∧ 5 - 5 % 2 ≤ 5 ∧ 5 < (5 - 5 % 2) + 2) :=
  ⟨by decide, by decide,
    get_data_trims_amended (fun l => l) ([0, 1, 2, 3, 4] : List ℕ) 2 (by decide) (by decide)⟩

/-! ## C6: the training graph's three heads and the standalone decoder -/

/-- C6 amended: each training-graph head applies exactly the standalone
decoder's transformation (same layer weights) to the latent sample produced
by its own invocation of the sampling Lambda; the three invocations carry
independent noise draws `eps1`, `eps2`, `eps3`. -/
theorem training_heads_decode_amended (w : DecoderWeights) (L A : ℕ)
    (zMean zLogVar eps1 eps2 eps3 : List ℝ) :
    decoder_output_CDR3 w L A zMean zLogVar eps1 =
        (decode w L A (sampling zMean zLogVar eps1)).1 ∧
      decoder_output_Vgene w zMean zLogVar eps2 =
        (decode w L A (sampling zMean zLogVar eps2)).2.1 ∧
      decoder_output_Jgene w zMean zLogVar eps3 =
        (decode w L A (sampling zMean zLogVar eps3)).2.2 :=
  ⟨rfl, rfl, rfl⟩

/-- Counterexample to C6 as stated: the V-gene head's training output, whose
sampling-Lambda invocation drew noise `[1]`, differs from the value the
standalone decoder yields on the CDR3 head's latent sample (noise `[0]`), so
the three reconstruction outputs are not computed from one and the same
latent sample. -/
theorem training_heads_share_sample_cex :
    decoder_output_Vgene cex_weights [0] [0] [1] ≠
      (decode cex_weights 1 1 (sampling [0] [0] [0])).2.1 := by
  have helu1 : elu 1 = 1 := by
    unfold elu
    rw [if_pos (by norm_num : (0 : ℝ) < 1)]
  have helu0 : elu 0 = 0 := by
    unfold elu
    rw [if_neg (lt_irrefl 0)]
    simp [Real.exp_zero]
  have hsamp1 : sampling [0] [0] [1] = [1] := by
    unfold sampling
    norm_num [Real.exp_zero]
  have hsamp0 : sampling [0] [0] [0] = [0] := by
    unfold sampling
    norm_num
  have h1 : denseElu [[(1 : ℝ)]] [0] [1] = [1] := by
    norm_num [denseElu, dense, dotProd, helu1]
  have h0 : denseElu [[(1 : ℝ)]] [0] [0] = [0] := by
    norm_num [denseElu, dense, dotProd, helu0]
  have hL : decoder_output_Vgene cex_weights [0] [0] [1] = softmax [1, 0] := by
    unfold decoder_output_Vgene
    simp only [cex_weights]
    rw [hsamp1, h1, h1]
    norm_num [dense, dotProd]
  have hR : (decode cex_weights 1 1 (sampling [0] [0] [0])).2.1 = softmax [0, 0] := by
    unfold decode
    simp only [cex_weights]
    rw [hsamp0, h0, h0]
    norm_num [dense, dotProd]
  rw [hL, hR]
  unfold softmax
  intro heq
  norm_num [Real.exp_zero] at heq
  obtain ⟨h1c, -⟩ := heq
  have hgt : (2 : ℝ) < Real.exp 1 := by
    have := Real.add_one_lt_exp (by norm_num : (1 : ℝ) ≠ 0)
    linarith
  have hpos : (0 : ℝ) < Real.exp 1 + 1 := by positivity
  rw [div_eq_iff hpos.ne'] at h1c
  linarith

/-! ## C4: the reconstruction term's scale factor -/

lemma num_elements3_of_shape (o : List (List (List ℝ))) (B L A : ℕ)
    (hB : o.length = B) (hL : ∀ m ∈ o, m.length = L)
    (hA : ∀ m ∈ o, ∀ r ∈ m, r.length = A) :
    num_elements3 o = B * L * A := by
  unfold num_elements3
  have hinner : ∀ m ∈ o, (m.map List.length).sum = L * A := by
    intro m hm
    have h1 : ∀ x ∈ m.map List.length, x = A := by
      intro x hx
      obtain ⟨r, hr, rfl⟩ := List.mem_map.mp hx
      exact hA m hm r hr
    rw [List.sum_eq_card_nsmul _ _ h1, List.length_map, hL m hm, smul_eq_mul]
  have h2 : ∀ x ∈ o.map (fun m => (m.map List.length).sum), x = L * A := by
    intro x hx
    obtain ⟨m, hm, rfl⟩ := List.mem_map.mp hx
    exact hinner m hm
  rw [List.sum_eq_card_nsmul _ _ h2, List.length_map, hB, smul_eq_mul, mul_assoc]

/-- Counterexample to C4 as stated: on a one-sequence batch with 2 CDR3
positions over a 2-letter vocabulary and uniform decoded distributions, the
code's reconstruction term (`io_decoder.shape.num_elements()` times the mean
of the per-position cross-entropies) is `4 * log 2`, while the claimed
`(max_cdr3_len * n_aas) * mean_over_batch(per-sequence cross-entropy)` is
`8 * log 2`. -/
theorem reconstruction_scale_cex :
    xent_loss_CDR3 cex_target cex_output ≠ xent_loss_CDR3_spec cex_target cex_output 2 2 := by
  have hlog2 : (0 : ℝ) < Real.log 2 := Real.log_pos (by norm_num)
  have hhalf : Real.log (1 / 2 : ℝ) = -Real.log 2 := by
    rw [one_div, Real.log_inv]
  unfold xent_loss_CDR3 xent_loss_CDR3_spec num_elements3 kmean categorical_crossentropy
  simp only [cex_target, cex_output]
  norm_num [hhalf]

/-- C4 amended: the reconstruction term equals
`batch_size * max_cdr3_len * n_aas` (the decoder output tensor's total element
count, batch dimension included) times the mean over all batch-position pairs
of the per-position categorical cross-entropy. -/
theorem reconstruction_scale_amended (t o : List (List (List ℝ))) (B L A : ℕ)
    (hB : o.length = B) (hL : ∀ m ∈ o, m.length = L)
    (hA : ∀ m ∈ o, ∀ r ∈ m, r.length = A) :
    xent_loss_CDR3 t o =
      ((B * L * A : ℕ) : ℝ) *
        kmean (List.zipWith categorical_crossentropy t o).flatten := by
  unfold xent_loss_CDR3
  rw [num_elements3_of_shape o B L A hB hL hA]

/-- Witness for the amended C4 on the concrete one-sequence batch. -/
theorem reconstruction_scale_amended_witness :
    cex_output.length = 1 ∧ (∀ m ∈ cex_output, m.length = 2) ∧
      (∀ m ∈ cex_output, ∀ r ∈ m, r.length = 2) ∧
      xent_loss_CDR3 cex_target cex_output =
        ((1 * 2 * 2 : ℕ) : ℝ) *
          kmean (List.zipWith categorical_crossentropy cex_target cex_output).flatten :=
  ⟨by simp [cex_output], by simp [cex_output], by simp [cex_output],
    reconstruction_scale_amended cex_target cex_output 1 2 2 (by simp [cex_output])
      (by simp [cex_output]) (by simp [cex_output])⟩


/-! ## C10: equivalence with the matmul-diagonal formulation -/

lemma getD_map_of_lt {α β : Type} (l : List α) (f : α → β) (i : ℕ) (d : β)
    (h : i < l.length) : (l.map f).getD i d = f l[i] := by
  simp [List.getD_eq_getElem?_getD, List.getElem?_map, List.getElem?_eq_getElem h]

lemma range_map_getD (l : List ℝ) :
    (List.range l.length).map (fun k => l.getD k 0) = l := by
  apply List.ext_getElem (by simp)
  intro i h1 h2
  simp [List.getD_eq_getElem?_getD, List.getElem?_eq_getElem h2]

lemma transposeMat_headD (obs : List (List ℝ)) (hn : 0 < (obs.headD []).length) :
    (transposeMat obs).headD [] = obs.map (fun r => r.getD 0 0) := by
  unfold transposeMat
  obtain ⟨m, hm⟩ := Nat.exists_eq_succ_of_ne_zero (Nat.pos_iff_ne_zero.mp hn)
  rw [hm, List.range_succ_eq_map]
  simp

lemma double_transpose (obs : List (List ℝ)) (hn : 0 < (obs.headD []).length)
    (hrect : ∀ r ∈ obs, r.length = (obs.headD []).length) :
    transposeMat (transposeMat obs) = obs := by
  have hKlen : ((transposeMat obs).headD []).length = obs.length := by
    rw [transposeMat_headD obs hn, List.length_map]
  have hstep : transposeMat (transposeMat obs) =
      (List.range obs.length).map (fun j => (transposeMat obs).map (fun r => r.getD j 0)) := by
    rw [← hKlen]
    rfl
  rw [hstep]
  apply List.ext_getElem (by simp)
  intro i h1 h2
  simp only [List.getElem_map, List.getElem_range]
  unfold transposeMat
  rw [List.map_map]
  have hpt : ∀ k, ((fun r => r.getD i 0) ∘ fun j => obs.map (fun r => r.getD j 0)) k
      = obs[i].getD k 0 := by
    intro k
    simp only [Function.comp]
    exact getD_map_of_lt obs _ i 0 h2
  rw [funext hpt]
  rw [show (obs.headD []).length = obs[i].length from (hrect _ (List.getElem_mem h2)).symm]
  exact range_map_getD obs[i]

lemma diag_matmul_eq (probs obs : List (List ℝ))
    (hlen : probs.length = obs.length)
    (hrect : ∀ r ∈ obs, r.length = (obs.headD []).length) :
    diagonal (matmul probs (transposeMat obs)) =
      List.zipWith (fun prow orow => (List.zipWith (fun x y => x * y) prow orow).sum)
        probs obs := by
  rcases Nat.eq_zero_or_pos (obs.headD []).length with hn | hn
  · have hT : transposeMat obs = [] := by
      unfold transposeMat
      rw [hn]
      simp
    have hT2 : transposeMat ([] : List (List ℝ)) = [] := by
      unfold transposeMat
      simp
    unfold matmul
    simp only [hT, hT2, List.map_nil]
    apply List.ext_getElem
    · simp [diagonal, List.length_zipWith, hlen]
    · intro i h1 h2
      have hip : i < probs.length := by simpa [diagonal] using h1
      have hio : i < obs.length := hlen ▸ hip
      have hobs_i : obs[i] = [] := by
        apply List.eq_nil_of_length_eq_zero
        rw [hrect _ (List.getElem_mem hio)]
        exact hn
      simp only [diagonal, List.getElem_map, List.getElem_enum, List.getElem_zipWith, hobs_i]
      simp
  · unfold matmul
    simp only [double_transpose obs hn hrect]
    apply List.ext_getElem
    · simp [diagonal, List.length_zipWith, hlen]
    · intro i h1 h2
      have hip : i < probs.length := by simpa [diagonal] using h1
      have hio : i < obs.length := hlen ▸ hip
      simp only [diagonal, List.getElem_map, List.getElem_enum, List.getElem_zipWith]
      rw [getD_map_of_lt _ _ _ _ hio]
      rfl

/-- C10: for matrices of the same rectangular shape,
`logprob_of_obs_vect(probs, obs)` — the row-wise
`np.sum(np.log(np.sum(probs * obs, axis=1)))` — equals the matmul-diagonal
formulation `np.sum(np.log(np.matmul(probs, obs.T).diagonal()))` it replaced. -/
theorem logprob_matmul_equiv (probs obs : List (List ℝ))
    (hlen : probs.length = obs.length)
    (hrect : ∀ r ∈ obs, r.length = (obs.headD []).length) :
    logprob_of_obs_vect_matmul probs obs = logprob_of_obs_vect probs obs := by
  unfold logprob_of_obs_vect_matmul logprob_of_obs_vect
  rw [diag_matmul_eq probs obs hlen hrect]

/-- Witness for C10 on concrete 2x2 matrices. -/
theorem logprob_matmul_equiv_witness :
    ([[1, 0], [0, 1]] : List (List ℝ)).length = ([[0, 1], [1, 0]] : List (List ℝ)).length ∧
      (∀ r ∈ ([[0, 1], [1, 0]] : List (List ℝ)),
        r.length = (([[0, 1], [1, 0]] : List (List ℝ)).headD []).length) ∧
      logprob_of_obs_vect_matmul [[1, 0], [0, 1]] [[0, 1], [1, 0]] =
        logprob_of_obs_vect [[1, 0], [0, 1]] [[0, 1], [1, 0]] :=
  ⟨rfl, by simp, logprob_matmul_equiv [[1, 0], [0, 1]] [[0, 1], [1, 0]] rfl (by simp)⟩

end
